import Mathlib

/-!
# Verification of the browser spec-to-catalog matcher (`src/start.js`)

A shallow embedding of the Matcher/Aggregator pipeline of `start.js`:
catalog stability filtering (`loadAvailableBrowsers`), version-constraint
parsing (`parseBrowserVersion`), per-spec matching
(`getBrowsersThatMatchSpec`), de-duplicating aggregation (`addBrowsers`,
`getBrowserId`) and the driving loop (`getTargetBrowsers`).

JavaScript particulars reflected in the embedding:
* optional / `null` / `undefined` string fields become `Option String`;
  the loose `==` used for field comparison treats `null == undefined` as
  true and a string as equal only to the identical string (`jsFieldEq`);
* `process.exit(1)` after printing the offending spec's JSON to stderr is
  modelled as `Except.error spec`: the error payload is exactly the spec
  whose JSON the program writes before exiting with status 1;
* `Array.prototype.sort` with the comparator
  `(a, b) => parseFloat(b.browser_version) - parseFloat(a.browser_version)`
  is modelled by a stable insertion sort `sortJS`; per the ECMAScript
  `SortCompare` step "if v is NaN, return +0", a comparison involving a
  version that does not parse as a number counts as a tie (and the order
  produced on such inconsistent comparators is implementation-defined in
  ECMAScript, so any stable algorithm is a faithful model);
* `parseFloat` is modelled on the grammar of version strings: an optional
  sign, then the longest prefix of digits, an optional dot and further
  digits; anything with no leading numeric prefix is NaN (`none`).
  Exponents, `Infinity` and leading whitespace do not occur in version
  strings and are not modelled;
* `console.warn('duplicate browser')` is counted in a warning counter.
-/

/-- A catalog entry `{os, os_version, browser, browser_version, device}`
from the provider. `browser_version` and `device` may be `null`/absent
(desktop entries have `device: null`). -/
structure AvailableBrowser where
  os : String
  os_version : String
  browser : String
  browser_version : Option String
  device : Option String
deriving Repr, DecidableEq

deriving instance DecidableEq for Except

/-- One `{browser, browser_version}` entry inside a grouped spec;
`browser_version` is optional. -/
structure BrowserEntry where
  browser : String
  browser_version : Option String
deriving Repr, DecidableEq

/-- A user-declared group `{os, os_version, device, browsers}` from
`browsers.json`. -/
structure GroupedBrowserSpec where
  os : String
  os_version : String
  device : Option String
  browsers : List BrowserEntry
deriving Repr, DecidableEq

/-- The parsed version constraint produced by `parseBrowserVersion`:
`{type: 'no-version'}`, `{type: 'last', value: n}` or
`{type: 'list', value: [...]}`. The `last` payload is the digit string
captured by the regex, kept as the natural number it denotes (its only
uses in the program — `browsers.length < value` and `slice(0, value)` —
coerce it numerically). -/
inductive VersionConstraint where
  | noVersion : VersionConstraint
  | last (n : Nat) : VersionConstraint
  | list (vs : List String) : VersionConstraint
deriving Repr, DecidableEq

/-- A flattened per-browser spec, as built inside `getTargetBrowsers`:
group fields plus one browser name and its parsed constraint. -/
structure ResolvedSpec where
  device : Option String
  os : String
  os_version : String
  browser : String
  browser_version : VersionConstraint
deriving Repr, DecidableEq

/-- Numeric value of a digit string, most significant digit first. -/
def digitsToNat (cs : List Char) : Nat :=
  cs.foldl (fun n c => 10 * n + (c.toNat - '0'.toNat)) 0

/-- `/^\d+(\.\d+)?$/` from `loadAvailableBrowsers`: one or more digits,
optionally followed by a dot and one or more digits, anchored at both
ends. -/
def matchesStableVersion (cs : List Char) : Bool :=
  let ip := cs.takeWhile Char.isDigit
  decide (ip ≠ []) &&
    (match cs.drop ip.length with
     | [] => true
     | '.' :: r => decide (r ≠ []) && r.all Char.isDigit
     | _ => false)

/-- The version-stability filter applied to each fetched catalog entry:
`!browser.browser_version || (browser.browser_version && /^\d+(\.\d+)?$/.exec(...))`.
A falsy version (`undefined`, `null` or the empty string) passes; a
non-empty version passes iff the anchored regex matches. -/
def isStableBrowser (browser : AvailableBrowser) : Bool :=
  match browser.browser_version with
  | none => true
  | some v => v == "" || matchesStableVersion v.data

/-- `loadAvailableBrowsers` after the fetch: filter out beta/dev versions.
The asynchronous fetch itself is external input, so the function is
modelled on the already-fetched list. -/
def loadAvailableBrowsers (browsers : List AvailableBrowser) : List AvailableBrowser :=
  browsers.filter isStableBrowser

/-- Attempt of the regex `/last (\d+)/` to match at the start of `cs`:
the literal `last ` (lowercase, one space) followed by at least one
digit; the capture is the maximal digit run, returned numerically. -/
def matchLastHere (cs : List Char) : Option Nat :=
  match cs with
  | 'l' :: 'a' :: 's' :: 't' :: ' ' :: rest =>
    let ds := rest.takeWhile Char.isDigit
    if ds = [] then none else some (digitsToNat ds)
  | _ => none

/-- `/last (\d+)/.exec(version)`: an unanchored search, trying each start
position from the left and returning the capture of the first position
where the whole pattern matches. -/
def searchLast : List Char → Option Nat
  | [] => none
  | c :: cs =>
    match matchLastHere (c :: cs) with
    | some n => some n
    | none => searchLast cs

/-- `String.prototype.split(',')` on the character list: the groups of
characters between commas, in order, empty groups included. -/
def splitComma : List Char → List (List Char)
  | [] => [[]]
  | ',' :: rest => [] :: splitComma rest
  | c :: rest =>
    match splitComma rest with
    | [] => [[c]]
    | g :: gs => (c :: g) :: gs

/-- `version.split(',')`: the comma-separated pieces of the raw string,
with no trimming. -/
def splitOnCommas (s : String) : List String :=
  (splitComma s.data).map String.mk

/-- `parseBrowserVersion(version)`: a falsy version (absent or empty)
gives `no-version`; else if `/last (\d+)/` finds a match anywhere in the
string, `last` with the captured digits; else `list` of the raw string
split on commas (no trimming). -/
def parseBrowserVersion (version : Option String) : VersionConstraint :=
  match version with
  | none => .noVersion
  | some v =>
    if v = "" then .noVersion
    else
      match searchLast v.data with
      | some n => .last n
      | none => .list (splitOnCommas v)

/-- JavaScript `==` between the possibly-absent string fields compared in
`getBrowsersThatMatchSpec`: `null == undefined` is true, two strings are
`==` iff they are equal, and a string is never `==` to `null`/`undefined`. -/
def jsFieldEq (a b : Option String) : Bool :=
  match a, b with
  | none, none => true
  | some x, some y => x == y
  | _, _ => false

/-- The candidate filter of `getBrowsersThatMatchSpec` step 1: device, os,
os_version and browser of the catalog entry all `==` the spec's fields. -/
def specMatchesBrowser (spec : ResolvedSpec) (browser : AvailableBrowser) : Bool :=
  jsFieldEq spec.device browser.device &&
  spec.os == browser.os &&
  spec.os_version == browser.os_version &&
  spec.browser == browser.browser

/-- `parseFloat` on a version field: `undefined` is NaN; on a string, an
optional sign, the longest digit prefix and an optional dot-digits part
are converted, and a string with no digits in that position is NaN
(`none`). The decimal value `sign * (ip + fp / 10 ^ |fp|)` is written as
a single `mkRat` over integers so that it evaluates by kernel reduction.
Exact on the version-string grammar (no exponents or leading
whitespace). -/
def parseFloatQ (s : String) : Option ℚ :=
  let p : (Bool × List Char) :=
    match s.data with
    | '-' :: r => (true, r)
    | '+' :: r => (false, r)
    | r => (false, r)
  let ip := p.2.takeWhile Char.isDigit
  let rest := p.2.drop ip.length
  let fp : List Char :=
    match rest with
    | '.' :: r => r.takeWhile Char.isDigit
    | _ => []
  if ip = [] ∧ fp = [] then none
  else
    let mag : Int := digitsToNat ip * 10 ^ fp.length + digitsToNat fp
    some (mkRat (if p.1 then -mag else mag) (10 ^ fp.length))

/-- `parseFloat(browser.browser_version)` where the field may be absent. -/
def parseFloatBV (v : Option String) : Option ℚ :=
  match v with
  | none => none
  | some s => parseFloatQ s

/-- Rational subtraction `x - y`, spelled as a cross-multiplied `mkRat`
so that it evaluates by kernel reduction; `ratSub_eq` proves it equal to
`x - y`. -/
def ratSub (x y : ℚ) : ℚ :=
  mkRat (x.num * y.den - y.num * x.den) (x.den * y.den)

/-- The sort comparator `(a, b) => parseFloat(b.browser_version) -
parseFloat(a.browser_version)`, with the ECMAScript `SortCompare` rule
that a NaN comparator result counts as `+0` (a tie). -/
def jsSortCompare (a b : AvailableBrowser) : ℚ :=
  match parseFloatBV b.browser_version, parseFloatBV a.browser_version with
  | some x, some y => ratSub x y
  | _, _ => 0

/-- Stable insertion of `x` into `l`: `x` goes before the first element
it compares `≤ 0` against (i.e. that does not sort strictly before it). -/
def insertJS (x : AvailableBrowser) : List AvailableBrowser → List AvailableBrowser
  | [] => [x]
  | y :: ys => if jsSortCompare x y ≤ 0 then x :: y :: ys else y :: insertJS x ys

/-- `Array.prototype.sort` with `jsSortCompare`, modelled as a stable
insertion sort (ECMAScript requires a stable sort; on an inconsistent
comparator the resulting order is implementation-defined, and insertion
sort is one conforming implementation). -/
def sortJS : List AvailableBrowser → List AvailableBrowser
  | [] => []
  | x :: xs => insertJS x (sortJS xs)

/-- Membership test `versions.includes(browser.browser_version)`:
an absent version field is `undefined`, which is never a member of a
list of strings. -/
def versionIncluded (versions : List String) (v : Option String) : Bool :=
  match v with
  | none => false
  | some s => versions.contains s

/-- `getBrowsersThatMatchSpec(availableBrowsers, spec)`.  `Except.error
spec` models the `process.exit(1)` paths, each of which first writes the
spec's JSON to standard error. -/
def getBrowsersThatMatchSpec (availableBrowsers : List AvailableBrowser)
    (spec : ResolvedSpec) : Except ResolvedSpec (List AvailableBrowser) := do
  let browsers := availableBrowsers.filter (specMatchesBrowser spec)
  let browsers ←
    match spec.browser_version with
    | .list versions => pure (browsers.filter (fun b => versionIncluded versions b.browser_version))
    | .last n =>
      let sorted := sortJS browsers
      if sorted.length < n then Except.error spec
      else pure (sorted.take n)
    | .noVersion => pure browsers
  if browsers = [] then Except.error spec
  else pure browsers

/-- `getBrowserId(browser)`: the five fields joined with `_`;
`Array.prototype.join` renders `undefined`/`null` elements as the empty
string. -/
def getBrowserId (browser : AvailableBrowser) : String :=
  String.intercalate "_"
    [browser.os, browser.os_version, browser.browser,
     browser.browser_version.getD "", browser.device.getD ""]

/-- The aggregation state: the `targetBrowsers` object (an insertion-
ordered string-keyed map, modelled as an association list whose keys are
unique) together with the number of `duplicate browser` warnings printed
so far. -/
structure AggState where
  map : List (String × AvailableBrowser)
  warnings : Nat
deriving Repr, DecidableEq

/-- One step of `addBrowsers`: warn if the id is already a key, then
`browserMap[id] = browser` — which overwrites in place when the key
exists (keeping its position, as JavaScript objects do) and appends
otherwise. -/
def insertBrowser (st : AggState) (browser : AvailableBrowser) : AggState :=
  let id := getBrowserId browser
  if st.map.any (fun p => p.1 == id) then
    { map := st.map.map (fun p => if p.1 == id then (p.1, browser) else p)
      warnings := st.warnings + 1 }
  else
    { map := st.map ++ [(id, browser)], warnings := st.warnings }

/-- `addBrowsers(browserMap, browsers)`: insert each matched browser in
order. -/
def addBrowsers (st : AggState) (browsers : List AvailableBrowser) : AggState :=
  browsers.foldl insertBrowser st

/-- The flattening done at the top of `getTargetBrowsers`: one
`ResolvedSpec` per entry of the group's `browsers` list, inheriting the
group fields and parsing the entry's raw version. -/
def resolveSpecs (g : GroupedBrowserSpec) : List ResolvedSpec :=
  g.browsers.map (fun e =>
    { device := g.device
      os := g.os
      os_version := g.os_version
      browser := e.browser
      browser_version := parseBrowserVersion e.browser_version })

/-- The nested `forEach` loops of `getTargetBrowsers`, flattened: match
each resolved spec in order and aggregate; a `process.exit(1)` inside
`getBrowsersThatMatchSpec` aborts everything. -/
def processSpecs (availableBrowsers : List AvailableBrowser) (st : AggState) :
    List ResolvedSpec → Except ResolvedSpec AggState
  | [] => Except.ok st
  | spec :: rest => do
    let browsers ← getBrowsersThatMatchSpec availableBrowsers spec
    processSpecs availableBrowsers (addBrowsers st browsers) rest

/-- `getTargetBrowsers(availableBrowsers, aggregatedSpecs)`: returns
`Object.values(targetBrowsers)` (the map's values in insertion order)
together with the number of duplicate warnings emitted. -/
def getTargetBrowsers (availableBrowsers : List AvailableBrowser)
    (aggregatedSpecs : List GroupedBrowserSpec) :
    Except ResolvedSpec (List AvailableBrowser × Nat) := do
  let st ← processSpecs availableBrowsers ⟨[], 0⟩
    (aggregatedSpecs.flatMap resolveSpecs)
  pure (st.map.map Prod.snd, st.warnings)

/-! ## Specification-side notions

Definitions used to state the claims, phrased from the spec's words so
that the theorems compare them against the embedded code. -/

/-- The numeric sort key of a catalog entry: the parsed version, with a
default that is only ever used when the entry does not parse (claims
about numeric sorting always assume every candidate parses). -/
def versionKey (b : AvailableBrowser) : ℚ :=
  (parseFloatBV b.browser_version).getD 0

/-- The entry's version field parses as a number (is not NaN). -/
def hasNumericVersion (b : AvailableBrowser) : Bool :=
  (parseFloatBV b.browser_version).isSome

/-- The candidates of step 1 of the match: catalog entries whose device,
os, os_version and browser equal the spec's fields. -/
def candidatesFor (catalog : List AvailableBrowser) (spec : ResolvedSpec) :
    List AvailableBrowser :=
  catalog.filter (specMatchesBrowser spec)

/-- The candidate set "after all filtering": the step-1 candidates with
the spec's version constraint applied (`NoVersion` passes everything,
`ExactList` keeps members, `LastN` takes the first `n` of the
numerically-descending sort). -/
def filteredCandidates (catalog : List AvailableBrowser) (spec : ResolvedSpec) :
    List AvailableBrowser :=
  match spec.browser_version with
  | .noVersion => candidatesFor catalog spec
  | .list versions =>
    (candidatesFor catalog spec).filter (fun b => versionIncluded versions b.browser_version)
  | .last n => (sortJS (candidatesFor catalog spec)).take n

/-- Spec-side reading of the stability pattern "an integer, optionally
followed by a dot and an integer": the character list is a non-empty
block of digits, possibly followed by a dot and another non-empty block
of digits. -/
def StableVersionShape (cs : List Char) : Prop :=
  ∃ ds : List Char, ds ≠ [] ∧ ds.all Char.isDigit ∧
    (cs = ds ∨ ∃ fs : List Char, fs ≠ [] ∧ fs.all Char.isDigit ∧ cs = ds ++ '.' :: fs)

/-- Spec-side reading of one occurrence of the `last N` pattern inside a
string: a decomposition into a prefix, the literal `last ` and a digit
starting the captured run. -/
def LastPatternAt (cs p : List Char) (d : Char) (q : List Char) : Prop :=
  cs = p ++ 'l' :: 'a' :: 's' :: 't' :: ' ' :: d :: q ∧ d.isDigit

/-- The occurrence at prefix `p` is the leftmost one (regex `exec`
returns the match at the smallest starting index). -/
def FirstLastPatternAt (cs p : List Char) (d : Char) (q : List Char) : Prop :=
  LastPatternAt cs p d q ∧
    ∀ p₂ d₂ q₂, LastPatternAt cs p₂ d₂ q₂ → p.length ≤ p₂.length

/-- The last element of `bs` whose identity key is `k`, if any — the
"later-inserted browser" of the duplicate-key rule. -/
def lastWithKey (k : String) : List AvailableBrowser → Option AvailableBrowser
  | [] => none
  | b :: bs =>
    match lastWithKey k bs with
    | some r => some r
    | none => if getBrowserId b = k then some b else none

/-- The values stored in the aggregation map under key `k`, in order. -/
def entriesFor (k : String) (m : List (String × AvailableBrowser)) :
    List AvailableBrowser :=
  (m.filter (fun p => p.1 == k)).map Prod.snd

/-- The keys of the aggregation map are pairwise distinct (holds of every
state reachable from the empty map; JavaScript objects cannot hold a key
twice). -/
def KeysNodup (m : List (String × AvailableBrowser)) : Prop :=
  (m.map Prod.fst).Nodup

/-! ## Reference-passing model of array mutation

`getBrowsersThatMatchSpec` calls the in-place `Array.prototype.sort`. To
state that the catalog array is never mutated, arrays of catalog entries
live in a store and are passed by reference: `filter`, `slice` and array
literals allocate fresh cells, `sort` overwrites the cell it is invoked
on. The pure functions above are the values computed; this model tracks
which cell each intermediate array lives in. -/

/-- A heap of `AvailableBrowser` arrays; a reference is an index. -/
abbrev Store : Type := List (List AvailableBrowser)

/-- Allocate a fresh array cell (as `filter`/`slice` do). -/
def allocArr (σ : Store) (a : List AvailableBrowser) : Store × Nat :=
  (σ ++ [a], σ.length)

/-- Read the array behind a reference. -/
def readArr (σ : Store) (r : Nat) : List AvailableBrowser :=
  σ.getD r []

/-- Overwrite the array behind a reference (as the in-place `sort` does). -/
def writeArr (σ : Store) (r : Nat) (a : List AvailableBrowser) : Store :=
  σ.set r a

/-- The constraint-application part of `getBrowsersThatMatchSpec` with
the array operations made explicit: `availableBrowsers.filter(...)`
allocates a fresh cell holding the filtered candidates;
`browsers.filter(...)` for a version list allocates again;
`browsers.sort(...)` overwrites the cell holding the filtered candidates
(never the catalog cell); `browsers.slice(0, n)` allocates. Returns the
new store and either the fatal spec or a reference to the
constraint-filtered array. -/
def matchSpecRefCore (σ : Store) (availRef : Nat) (spec : ResolvedSpec) :
    Store × Except ResolvedSpec Nat :=
  let p₁ := allocArr σ ((readArr σ availRef).filter (specMatchesBrowser spec))
  let σ₁ := p₁.1
  let br := p₁.2
  match spec.browser_version with
  | .list versions =>
    let p₂ := allocArr σ₁
      ((readArr σ₁ br).filter (fun b => versionIncluded versions b.browser_version))
    (p₂.1, Except.ok p₂.2)
  | .last n =>
    let σ₂ := writeArr σ₁ br (sortJS (readArr σ₁ br))
    if (readArr σ₂ br).length < n then (σ₂, Except.error spec)
    else
      let p₃ := allocArr σ₂ ((readArr σ₂ br).take n)
      (p₃.1, Except.ok p₃.2)
  | .noVersion => (σ₁, Except.ok br)

/-- `getBrowsersThatMatchSpec` in the reference-passing model: the
constraint application of `matchSpecRefCore` followed by the final
empty-result check, which only reads. -/
def getBrowsersThatMatchSpecRef (σ : Store) (availRef : Nat) (spec : ResolvedSpec) :
    Store × Except ResolvedSpec Nat :=
  match matchSpecRefCore σ availRef spec with
  | (σ₂, Except.error e) => (σ₂, Except.error e)
  | (σ₂, Except.ok brF) =>
    if readArr σ₂ brF = [] then (σ₂, Except.error spec)
    else (σ₂, Except.ok brF)

/-- The spec-processing loop with the store threaded through: every
iteration passes the same catalog reference, exactly as the JavaScript
closure over `availableBrowsers` does. -/
def processSpecsRef (availRef : Nat) : Store → AggState → List ResolvedSpec →
    Store × Except ResolvedSpec AggState
  | σ, st, [] => (σ, Except.ok st)
  | σ, st, spec :: rest =>
    match getBrowsersThatMatchSpecRef σ availRef spec with
    | (σ', Except.error e) => (σ', Except.error e)
    | (σ', Except.ok br) =>
      processSpecsRef availRef σ' (addBrowsers st (readArr σ' br)) rest

/-- `getTargetBrowsers` with the catalog passed by reference into a
store. -/
def getTargetBrowsersRef (σ : Store) (availRef : Nat)
    (aggregatedSpecs : List GroupedBrowserSpec) :
    Store × Except ResolvedSpec (List AvailableBrowser × Nat) :=
  match processSpecsRef availRef σ ⟨[], 0⟩ (aggregatedSpecs.flatMap resolveSpecs) with
  | (σ', Except.error e) => (σ', Except.error e)
  | (σ', Except.ok st) => (σ', Except.ok (st.map.map Prod.snd, st.warnings))

/-! ## Concrete fixtures

Closed inputs used by counterexamples and by the witness instantiations
of the theorems. -/

/-- A catalog entry for a fixed device/os/browser with the given version. -/
def exEntry (v : String) : AvailableBrowser :=
  { os := "ios", os_version := "10.3", browser := "Mobile Safari"
    browser_version := some v, device := some "iPhone 7" }

/-- A resolved spec for the same device/os/browser with the given
constraint. -/
def exSpec (c : VersionConstraint) : ResolvedSpec :=
  { device := some "iPhone 7", os := "ios", os_version := "10.3"
    browser := "Mobile Safari", browser_version := c }

/-- The grouped spec from the spec's worked example, with no version on
the browser entry. -/
def exGroup : GroupedBrowserSpec :=
  { os := "ios", os_version := "10.3", device := some "iPhone 7"
    browsers := [{ browser := "Mobile Safari", browser_version := none }] }

/-- A fetched catalog entry whose version field is present but empty. -/
def exEmptyVersionEntry : AvailableBrowser :=
  { os := "Windows", os_version := "11", browser := "chrome"
    browser_version := some "", device := none }

/-- Two distinct records that collide on the underscore-joined identity
key: `a_b / c` versus `a / b_c`. -/
def exUnderscoreA : AvailableBrowser :=
  { os := "a_b", os_version := "c", browser := "x"
    browser_version := some "1", device := some "d" }

/-- See `exUnderscoreA`. -/
def exUnderscoreB : AvailableBrowser :=
  { os := "a", os_version := "b_c", browser := "x"
    browser_version := some "1", device := some "d" }

/-! ## Properties of the numeric sort -/

theorem insertJS_perm (x : AvailableBrowser) (l : List AvailableBrowser) :
    List.Perm (insertJS x l) (x :: l) := by
  induction l with
  | nil => rfl
  | cons y ys ih =>
    by_cases h : jsSortCompare x y ≤ 0
    · simp [insertJS, h]
    · simp only [insertJS, if_neg h]
      exact (ih.cons y).trans (List.Perm.swap x y ys)

theorem sortJS_perm (l : List AvailableBrowser) : List.Perm (sortJS l) l := by
  induction l with
  | nil => rfl
  | cons x xs ih => exact (insertJS_perm x (sortJS xs)).trans (ih.cons x)

theorem mem_insertJS {a x : AvailableBrowser} {l : List AvailableBrowser} :
    a ∈ insertJS x l ↔ a = x ∨ a ∈ l := by
  rw [(insertJS_perm x l).mem_iff, List.mem_cons]

theorem sortJS_length (l : List AvailableBrowser) :
    (sortJS l).length = l.length :=
  (sortJS_perm l).length_eq

theorem mem_sortJS {a : AvailableBrowser} {l : List AvailableBrowser} :
    a ∈ sortJS l ↔ a ∈ l :=
  (sortJS_perm l).mem_iff

theorem ratSub_eq (x y : ℚ) : ratSub x y = x - y := by
  rw [ratSub, Rat.sub_def']

theorem jsSortCompare_le_iff {x y : AvailableBrowser}
    (hx : hasNumericVersion x = true) (hy : hasNumericVersion y = true) :
    jsSortCompare x y ≤ 0 ↔ versionKey y ≤ versionKey x := by
  unfold hasNumericVersion at hx hy
  obtain ⟨qx, hqx⟩ := Option.isSome_iff_exists.mp hx
  obtain ⟨qy, hqy⟩ := Option.isSome_iff_exists.mp hy
  simp [jsSortCompare, versionKey, hqx, hqy, ratSub_eq, sub_nonpos]

theorem insertJS_pairwise_key {x : AvailableBrowser} {l : List AvailableBrowser}
    (hx : hasNumericVersion x = true) (hl : ∀ b ∈ l, hasNumericVersion b = true)
    (h : l.Pairwise (fun a b => versionKey b ≤ versionKey a)) :
    (insertJS x l).Pairwise (fun a b => versionKey b ≤ versionKey a) := by
  induction l with
  | nil => simp [insertJS]
  | cons y ys ih =>
    have hy : hasNumericVersion y = true := hl y (by simp)
    have hys : ∀ b ∈ ys, hasNumericVersion b = true := fun b hb => hl b (by simp [hb])
    rcases List.pairwise_cons.mp h with ⟨hhead, htail⟩
    by_cases hc : jsSortCompare x y ≤ 0
    · simp only [insertJS, if_pos hc]
      refine List.pairwise_cons.mpr ⟨?_, h⟩
      intro z hz
      rcases List.mem_cons.mp hz with rfl | hz'
      · exact (jsSortCompare_le_iff hx hy).mp hc
      · exact le_trans (hhead z hz') ((jsSortCompare_le_iff hx hy).mp hc)
    · simp only [insertJS, if_neg hc]
      refine List.pairwise_cons.mpr ⟨?_, ih hys htail⟩
      intro z hz
      rcases mem_insertJS.mp hz with rfl | hz'
      · have hnle : ¬ versionKey y ≤ versionKey z :=
          fun hle => hc ((jsSortCompare_le_iff hx hy).mpr hle)
        exact le_of_lt (lt_of_not_le hnle)
      · exact hhead z hz'

theorem sortJS_pairwise_key {l : List AvailableBrowser}
    (hl : ∀ b ∈ l, hasNumericVersion b = true) :
    (sortJS l).Pairwise (fun a b => versionKey b ≤ versionKey a) := by
  induction l with
  | nil => simp [sortJS]
  | cons x xs ih =>
    have hxs : ∀ b ∈ xs, hasNumericVersion b = true := fun b hb => hl b (by simp [hb])
    refine insertJS_pairwise_key (hl x (by simp)) ?_ (ih hxs)
    intro b hb
    exact hxs b (mem_sortJS.mp hb)

theorem sortJS_pairwise_strict {l : List AvailableBrowser}
    (hl : ∀ b ∈ l, hasNumericVersion b = true)
    (hd : l.Pairwise (fun a b => versionKey a ≠ versionKey b)) :
    (sortJS l).Pairwise (fun a b => versionKey b < versionKey a) := by
  have h1 := sortJS_pairwise_key hl
  have h2 : (sortJS l).Pairwise (fun a b => versionKey a ≠ versionKey b) :=
    ((sortJS_perm l).pairwise_iff (fun h => h.symm)).mpr hd
  exact (h1.and h2).imp (fun h => lt_of_le_of_ne h.1 (Ne.symm h.2))

/-! ## Characterization of `getBrowsersThatMatchSpec` -/

theorem getBrowsersThatMatchSpec_eq (catalog : List AvailableBrowser) (spec : ResolvedSpec) :
    getBrowsersThatMatchSpec catalog spec =
      match spec.browser_version with
      | .list versions =>
        let bs := (catalog.filter (specMatchesBrowser spec)).filter
          (fun b => versionIncluded versions b.browser_version)
        if bs = [] then Except.error spec else Except.ok bs
      | .last n =>
        let sorted := sortJS (catalog.filter (specMatchesBrowser spec))
        if sorted.length < n then Except.error spec
        else if sorted.take n = [] then Except.error spec else Except.ok (sorted.take n)
      | .noVersion =>
        let bs := catalog.filter (specMatchesBrowser spec)
        if bs = [] then Except.error spec else Except.ok bs := by
  rcases hv : spec.browser_version with _ | n | versions
  · simp only [getBrowsersThatMatchSpec, hv, pure_bind]
    rfl
  · simp only [getBrowsersThatMatchSpec, hv]
    by_cases h : (sortJS (catalog.filter (specMatchesBrowser spec))).length < n
    · simp only [h, if_true, ite_true]
      rfl
    · simp only [h, if_neg, ite_false, pure_bind]
      rfl
  · simp only [getBrowsersThatMatchSpec, hv, pure_bind]
    rfl

theorem matchSpec_cases (catalog : List AvailableBrowser) (spec : ResolvedSpec) :
    getBrowsersThatMatchSpec catalog spec = Except.error spec ∨
    getBrowsersThatMatchSpec catalog spec = Except.ok (filteredCandidates catalog spec) := by
  rw [getBrowsersThatMatchSpec_eq]
  rcases hv : spec.browser_version with _ | n | versions <;>
    simp only [filteredCandidates, candidatesFor, hv] <;> split_ifs <;> simp

theorem matchSpec_ok_eq {catalog : List AvailableBrowser} {spec : ResolvedSpec}
    {r : List AvailableBrowser}
    (h : getBrowsersThatMatchSpec catalog spec = Except.ok r) :
    r = filteredCandidates catalog spec := by
  rcases matchSpec_cases catalog spec with hc | hc
  · rw [h] at hc
    exact absurd hc (by simp)
  · rw [h] at hc
    exact (Except.ok.injEq _ _ ▸ congrArg id hc : r = _)

theorem matchSpec_error_iff (catalog : List AvailableBrowser) (spec : ResolvedSpec) :
    getBrowsersThatMatchSpec catalog spec = Except.error spec ↔
      (∃ n, spec.browser_version = .last n ∧ (candidatesFor catalog spec).length < n) ∨
      filteredCandidates catalog spec = [] := by
  rw [getBrowsersThatMatchSpec_eq]
  rcases hv : spec.browser_version with _ | n | versions
  · simp only [filteredCandidates, candidatesFor, hv]
    constructor
    · intro h
      by_cases he : catalog.filter (specMatchesBrowser spec) = []
      · exact Or.inr he
      · rw [if_neg he] at h
        exact absurd h (by simp)
    · rintro (⟨m, hm, _⟩ | he)
      · exact absurd hm (by simp)
      · rw [if_pos he]
  · simp only [filteredCandidates, candidatesFor, hv, VersionConstraint.last.injEq]
    rw [← sortJS_length (catalog.filter (specMatchesBrowser spec))]
    by_cases h1 : (sortJS (catalog.filter (specMatchesBrowser spec))).length < n
    · simp only [if_pos h1]
      constructor
      · intro _
        exact Or.inl ⟨n, rfl, h1⟩
      · intro _
        trivial
    · simp only [if_neg h1]
      by_cases h2 : (sortJS (catalog.filter (specMatchesBrowser spec))).take n = []
      · simp only [if_pos h2]
        constructor
        · intro _
          exact Or.inr h2
        · intro _
          trivial
      · simp only [if_neg h2]
        constructor
        · intro h
          exact absurd h (by simp)
        · rintro (⟨m, hm, hlt⟩ | he)
          · rcases hm with rfl
            exact absurd hlt h1
          · exact absurd he h2
  · simp only [filteredCandidates, candidatesFor, hv]
    by_cases he : List.filter (fun b => versionIncluded versions b.browser_version)
        (List.filter (specMatchesBrowser spec) catalog) = []
    · simp only [if_pos he]
      constructor
      · intro _
        exact Or.inr he
      · intro _
        trivial
    · simp only [if_neg he]
      constructor
      · intro h
        exact absurd h (by simp)
      · rintro (⟨m, hm, _⟩ | hee)
        · exact absurd hm (by simp)
        · exact absurd hee he

/-- C2: `getBrowsersThatMatchSpec` terminates the whole process with exit
status 1 after writing the offending spec's JSON to standard error
(modelled by `Except.error spec`) if and only if either the constraint is
`LastN n` and fewer than `n` candidates match the spec's
device/os/os_version/browser fields, or the candidate set after all
filtering is empty — the empty-result check applying to every constraint
kind, `NoVersion` included; in every other case it returns normally. -/
theorem matchSpec_fatal_characterization (catalog : List AvailableBrowser)
    (spec : ResolvedSpec) :
    (getBrowsersThatMatchSpec catalog spec = Except.error spec ↔
      (∃ n, spec.browser_version = .last n ∧ (candidatesFor catalog spec).length < n) ∨
      filteredCandidates catalog spec = []) ∧
    (getBrowsersThatMatchSpec catalog spec = Except.error spec ∨
      getBrowsersThatMatchSpec catalog spec = Except.ok (filteredCandidates catalog spec)) :=
  ⟨matchSpec_error_iff catalog spec, matchSpec_cases catalog spec⟩

/-- Witness for C2: on an empty catalog the `NoVersion` spec is fatal. -/
theorem matchSpec_fatal_characterization_witness :
    getBrowsersThatMatchSpec [] (exSpec .noVersion) = Except.error (exSpec .noVersion) :=
  (matchSpec_fatal_characterization [] (exSpec .noVersion)).1.mpr (Or.inr (by decide))

/-- C4: for an `ExactList` constraint the returned set is exactly the
catalog entries matching the spec's fields whose version string is a
member of the list. -/
theorem matchSpec_exactList (catalog : List AvailableBrowser) (spec : ResolvedSpec)
    (vs : List String) (r : List AvailableBrowser)
    (hv : spec.browser_version = .list vs)
    (hr : getBrowsersThatMatchSpec catalog spec = Except.ok r) :
    ∀ b, b ∈ r ↔ b ∈ catalog ∧ specMatchesBrowser spec b = true ∧
      ∃ v, b.browser_version = some v ∧ v ∈ vs := by
  intro b
  rcases matchSpec_ok_eq hr
  simp only [filteredCandidates, candidatesFor, hv, List.mem_filter]
  constructor
  · rintro ⟨⟨hb, hm⟩, hincl⟩
    refine ⟨hb, hm, ?_⟩
    cases hbv : b.browser_version with
    | none =>
      rw [hbv] at hincl
      exact absurd hincl (by simp [versionIncluded])
    | some v =>
      rw [hbv] at hincl
      refine ⟨v, rfl, ?_⟩
      simpa [versionIncluded] using hincl
  · rintro ⟨hb, hm, v, hbv, hv'⟩
    refine ⟨⟨hb, hm⟩, ?_⟩
    simp [versionIncluded, hbv, hv']

/-- Witness for C4: raw version `9,10` against versions 9, 10, 11. -/
theorem matchSpec_exactList_witness :
    exEntry "9" ∈ [exEntry "9", exEntry "10"] ↔
      exEntry "9" ∈ [exEntry "9", exEntry "10", exEntry "11"] ∧
      specMatchesBrowser (exSpec (parseBrowserVersion (some "9,10"))) (exEntry "9") = true ∧
      ∃ v, (exEntry "9").browser_version = some v ∧ v ∈ ["9", "10"] :=
  matchSpec_exactList [exEntry "9", exEntry "10", exEntry "11"]
    (exSpec (parseBrowserVersion (some "9,10"))) ["9", "10"]
    [exEntry "9", exEntry "10"] (by decide) (by decide) (exEntry "9")

/-- C5: for a `NoVersion` constraint (and a non-empty candidate set) the
matcher returns all field-matching catalog entries, with no filtering on
their version fields. -/
theorem matchSpec_noVersion (catalog : List AvailableBrowser) (spec : ResolvedSpec)
    (hv : spec.browser_version = .noVersion)
    (hne : candidatesFor catalog spec ≠ []) :
    getBrowsersThatMatchSpec catalog spec = Except.ok (candidatesFor catalog spec) ∧
    ∀ b, b ∈ candidatesFor catalog spec ↔ b ∈ catalog ∧ specMatchesBrowser spec b = true := by
  have hfc : filteredCandidates catalog spec = candidatesFor catalog spec := by
    simp [filteredCandidates, hv]
  constructor
  · rcases matchSpec_cases catalog spec with hc | hc
    · rw [matchSpec_error_iff] at hc
      rcases hc with ⟨n, hn, _⟩ | hf
      · rw [hv] at hn
        exact absurd hn (by simp)
      · rw [hfc] at hf
        exact absurd hf hne
    · rw [hfc] at hc
      exact hc
  · intro b
    simp [candidatesFor, List.mem_filter]

/-- Witness for C5: the spec's worked example, a single matching entry. -/
theorem matchSpec_noVersion_witness :
    getBrowsersThatMatchSpec [exEntry "10.3"] (exSpec .noVersion) =
      Except.ok (candidatesFor [exEntry "10.3"] (exSpec .noVersion)) :=
  (matchSpec_noVersion [exEntry "10.3"] (exSpec .noVersion) rfl (by decide)).1

/-- C1 counterexample: the claim fails at `n = 0`. `last 0` (reachable
from the raw string `"last 0"`) with one matching candidate carrying a
distinct numeric version should, per the claim, return the 0 highest
versions (the empty list); the code instead exits fatally. -/
theorem matchSpec_lastZero_counterexample :
    getBrowsersThatMatchSpec [exEntry "10.3"] (exSpec (parseBrowserVersion (some "last 0"))) =
      Except.error (exSpec (parseBrowserVersion (some "last 0"))) ∧
    getBrowsersThatMatchSpec [exEntry "10.3"] (exSpec (parseBrowserVersion (some "last 0"))) ≠
      Except.ok [] := by
  constructor
  · decide
  · decide

/-- C1 (amended with `1 ≤ n`; for `n = 0` the empty-result check exits
instead): for a `LastN n` constraint, if at least `n` candidates match the
spec's fields and all carry distinct numeric versions, the matcher
returns exactly the `n` candidates with the numerically highest versions
(by parsed floating-point value), in descending order: the result has
length `n`, consists of candidates, is strictly descending on the numeric
version, and every rejected candidate lies strictly below every returned
one. -/
theorem matchSpec_lastN (catalog : List AvailableBrowser) (spec : ResolvedSpec) (n : Nat)
    (hv : spec.browser_version = .last n) (hpos : 1 ≤ n)
    (hlen : n ≤ (candidatesFor catalog spec).length)
    (hnum : ∀ b ∈ candidatesFor catalog spec, hasNumericVersion b = true)
    (hdist : (candidatesFor catalog spec).Pairwise (fun a b => versionKey a ≠ versionKey b)) :
    ∃ r, getBrowsersThatMatchSpec catalog spec = Except.ok r ∧
      r.length = n ∧
      (∀ b ∈ r, b ∈ candidatesFor catalog spec) ∧
      r.Pairwise (fun a b => versionKey b < versionKey a) ∧
      ∀ c ∈ candidatesFor catalog spec, c ∉ r → ∀ b ∈ r, versionKey c < versionKey b := by
  have hlen' : (sortJS (candidatesFor catalog spec)).length =
      (candidatesFor catalog spec).length := sortJS_length _
  have hfc : filteredCandidates catalog spec =
      (sortJS (candidatesFor catalog spec)).take n := by
    simp [filteredCandidates, hv]
  have htlen : ((sortJS (candidatesFor catalog spec)).take n).length = n := by
    rw [List.length_take, hlen']
    exact min_eq_left hlen
  have hok : getBrowsersThatMatchSpec catalog spec =
      Except.ok ((sortJS (candidatesFor catalog spec)).take n) := by
    rcases matchSpec_cases catalog spec with hc | hc
    · rw [matchSpec_error_iff] at hc
      rcases hc with ⟨m, hm, hlt⟩ | hemp
      · rw [hv] at hm
        injection hm with hnm
        subst hnm
        exact absurd hlt (not_lt.mpr hlen)
      · rw [hfc] at hemp
        rw [hemp] at htlen
        simp at htlen
        omega
    · rw [hfc] at hc
      exact hc
  have hstrict := sortJS_pairwise_strict hnum hdist
  refine ⟨(sortJS (candidatesFor catalog spec)).take n, hok, htlen, ?_, hstrict.take, ?_⟩
  · intro b hb
    exact mem_sortJS.mp (List.mem_of_mem_take hb)
  · intro c hc hcr b hb
    have hcs : c ∈ sortJS (candidatesFor catalog spec) := mem_sortJS.mpr hc
    rw [← List.take_append_drop n (sortJS (candidatesFor catalog spec))] at hcs
    rcases List.mem_append.mp hcs with h | h
    · exact absurd h hcr
    · exact hstrict.rel_of_mem_take_of_mem_drop hb h

/-- Witness for C1: `last 2` against 5 distinct numeric versions returns
exactly the 2 highest. -/
theorem matchSpec_lastN_witness :
    ∃ r, getBrowsersThatMatchSpec [exEntry "1", exEntry "3", exEntry "5", exEntry "2", exEntry "4"]
        (exSpec (parseBrowserVersion (some "last 2"))) = Except.ok r ∧
      r.length = 2 ∧
      (∀ b ∈ r, b ∈ candidatesFor [exEntry "1", exEntry "3", exEntry "5", exEntry "2", exEntry "4"]
        (exSpec (parseBrowserVersion (some "last 2")))) ∧
      r.Pairwise (fun a b => versionKey b < versionKey a) ∧
      ∀ c ∈ candidatesFor [exEntry "1", exEntry "3", exEntry "5", exEntry "2", exEntry "4"]
          (exSpec (parseBrowserVersion (some "last 2"))),
        c ∉ r → ∀ b ∈ r, versionKey c < versionKey b :=
  matchSpec_lastN [exEntry "1", exEntry "3", exEntry "5", exEntry "2", exEntry "4"]
    (exSpec (parseBrowserVersion (some "last 2"))) 2
    (by decide) (by decide) (by decide) (by decide) (by decide)

/-- C10: the underscore-joined identity key is not injective — two
distinct records whose own field values contain underscores collide, and
the later-matched record then silently replaces the earlier one in the
aggregation map, with only a non-fatal warning recorded. -/
theorem getBrowserId_not_injective :
    exUnderscoreA ≠ exUnderscoreB ∧
    getBrowserId exUnderscoreA = getBrowserId exUnderscoreB ∧
    (addBrowsers ⟨[], 0⟩ [exUnderscoreA, exUnderscoreB]).map =
      [(getBrowserId exUnderscoreB, exUnderscoreB)] ∧
    (addBrowsers ⟨[], 0⟩ [exUnderscoreA, exUnderscoreB]).warnings = 1 :=
  ⟨by decide, by decide, by decide, by decide⟩

/-! ## The stability pattern -/

theorem drop_length_takeWhile (p : Char → Bool) (l : List Char) :
    l.drop (l.takeWhile p).length = l.dropWhile p := by
  induction l with
  | nil => rfl
  | cons a l ih =>
    by_cases h : p a
    · simp [List.takeWhile_cons, List.dropWhile_cons, h, ih]
    · simp [List.takeWhile_cons, List.dropWhile_cons, h]

theorem stableShape_iff (cs : List Char) :
    matchesStableVersion cs = true ↔ StableVersionShape cs := by
  constructor
  · intro h
    simp only [matchesStableVersion, Bool.and_eq_true, decide_eq_true_eq,
      drop_length_takeWhile] at h
    obtain ⟨hne, hrest⟩ := h
    have hipall : ∀ x ∈ cs.takeWhile Char.isDigit, Char.isDigit x = true :=
      fun x hx => List.mem_takeWhile_imp hx
    have hsplit : cs.takeWhile Char.isDigit ++ cs.dropWhile Char.isDigit = cs :=
      List.takeWhile_append_dropWhile _ _
    split at hrest
    · rename_i heq
      refine ⟨cs.takeWhile Char.isDigit, hne, List.all_eq_true.mpr hipall, Or.inl ?_⟩
      conv_lhs => rw [← hsplit]
      rw [heq, List.append_nil]
    · rename_i r heq
      simp only [Bool.and_eq_true, decide_eq_true_eq] at hrest
      refine ⟨cs.takeWhile Char.isDigit, hne, List.all_eq_true.mpr hipall,
        Or.inr ⟨r, hrest.1, hrest.2, ?_⟩⟩
      conv_lhs => rw [← hsplit]
      rw [heq]
    · exact absurd hrest (by simp)
  · rintro ⟨ds, hne, hall, hshape⟩
    have hallmem : ∀ x ∈ ds, Char.isDigit x = true := List.all_eq_true.mp hall
    rcases hshape with rfl | ⟨fs, hfne, hfall, rfl⟩
    · have h2 : cs.dropWhile Char.isDigit = [] := by
        have := @List.dropWhile_append_of_pos _ _ cs [] hallmem
        simpa using this
      have h1 : cs.takeWhile Char.isDigit = cs := by
        have := @List.takeWhile_append_of_pos _ _ cs [] hallmem
        simpa using this
      simp only [matchesStableVersion, drop_length_takeWhile, h1, h2]
      simp [hne]
    · have h2 : ((ds ++ '.' :: fs).dropWhile Char.isDigit) = '.' :: fs := by
        rw [List.dropWhile_append_of_pos hallmem]
        simp [List.dropWhile_cons]
      have h1 : ((ds ++ '.' :: fs).takeWhile Char.isDigit) = ds := by
        rw [List.takeWhile_append_of_pos hallmem]
        simp [List.takeWhile_cons]
      simp only [matchesStableVersion, drop_length_takeWhile, h1, h2]
      simp [hne, hfne, hfall]

/-- C7 counterexample: an entry whose `browser_version` is present but
empty is retained by `loadAvailableBrowsers`, yet its version is neither
absent nor of the anchored integer-dot-integer shape, so the claimed
"if and only if" fails. -/
theorem loadAvailableBrowsers_empty_counterexample :
    loadAvailableBrowsers [exEmptyVersionEntry] = [exEmptyVersionEntry] ∧
    exEmptyVersionEntry.browser_version ≠ none ∧
    ¬ StableVersionShape "".data := by
  refine ⟨by decide, by decide, ?_⟩
  rintro ⟨ds, hne, _, h | ⟨fs, _, _, h⟩⟩
  · exact hne h.symm
  · have := congrArg List.length h
    simp at this
    omega

theorem isStableBrowser_iff (b : AvailableBrowser) :
    isStableBrowser b = true ↔
      b.browser_version = none ∨ b.browser_version = some "" ∨
      ∃ v, b.browser_version = some v ∧ StableVersionShape v.data := by
  unfold isStableBrowser
  cases hbv : b.browser_version with
  | none => simp
  | some v =>
    constructor
    · intro h
      have h' : v = "" ∨ matchesStableVersion v.data = true := by simpa using h
      rcases h' with rfl | h2
      · exact Or.inr (Or.inl rfl)
      · exact Or.inr (Or.inr ⟨v, rfl, (stableShape_iff v.data).mp h2⟩)
    · rintro (h | h | ⟨w, hw, hs⟩)
      · exact absurd h (by simp)
      · simp only [Option.some.injEq] at h
        subst h
        simp
      · simp only [Option.some.injEq] at hw
        subst hw
        simp [(stableShape_iff _).mpr hs]

/-- C7 (amended: an entry is also retained when its version field is
present but empty, the filter testing JavaScript truthiness): the fetched
catalog keeps an entry iff its version is absent, empty, or an integer
optionally followed by a dot and an integer; retained entries are
unchanged and in their original order (the result is a sublist). -/
theorem loadAvailableBrowsers_characterization (l : List AvailableBrowser)
    (b : AvailableBrowser) :
    List.Sublist (loadAvailableBrowsers l) l ∧
    (b ∈ loadAvailableBrowsers l ↔ b ∈ l ∧
      (b.browser_version = none ∨ b.browser_version = some "" ∨
        ∃ v, b.browser_version = some v ∧ StableVersionShape v.data)) := by
  constructor
  · exact List.filter_sublist l
  · rw [loadAvailableBrowsers, List.mem_filter, isStableBrowser_iff]

/-! ## Properties of the aggregation map -/

theorem keys_insertBrowser (st : AggState) (b : AvailableBrowser) :
    (insertBrowser st b).map.map Prod.fst =
      if st.map.any (fun p => p.1 == getBrowserId b) then st.map.map Prod.fst
      else st.map.map Prod.fst ++ [getBrowserId b] := by
  unfold insertBrowser
  by_cases h : st.map.any (fun p => p.1 == getBrowserId b)
  · simp only [h, if_true]
    rw [List.map_map]
    apply List.map_congr_left
    intro p _
    simp only [Function.comp_apply]
    split <;> rfl
  · simp [h]

theorem keysNodup_insertBrowser {st : AggState} (hn : KeysNodup st.map)
    (b : AvailableBrowser) : KeysNodup (insertBrowser st b).map := by
  unfold KeysNodup at *
  rw [keys_insertBrowser]
  by_cases h : st.map.any (fun p => p.1 == getBrowserId b)
  · simpa [h] using hn
  · have hnm : getBrowserId b ∉ st.map.map Prod.fst := by
      intro hm
      obtain ⟨p, hp, hq⟩ := List.mem_map.mp hm
      exact absurd (List.any_eq_true.mpr ⟨p, hp, by simp [hq]⟩) h
    simp [h, List.nodup_append, hn, hnm]

theorem filter_key_single {m : List (String × AvailableBrowser)} {k : String}
    (hn : KeysNodup m) :
    m.filter (fun p => p.1 == k) = [] ∨
    ∃ pr, m.filter (fun p => p.1 == k) = [pr] ∧ pr.1 = k := by
  induction m with
  | nil => exact Or.inl rfl
  | cons p m ih =>
    unfold KeysNodup at hn
    rw [List.map_cons, List.nodup_cons] at hn
    obtain ⟨hp, hm⟩ := hn
    by_cases hk : p.1 = k
    · right
      refine ⟨p, ?_, hk⟩
      rw [List.filter_cons_of_pos (by simp [hk])]
      have hnil : m.filter (fun q => q.1 == k) = [] := by
        rw [List.filter_eq_nil_iff]
        intro q hq
        simp only [beq_iff_eq]
        intro hqk
        exact hp (List.mem_map.mpr ⟨q, hq, by rw [hqk, hk]⟩)
      rw [hnil]
    · rw [List.filter_cons_of_neg (by simp [hk])]
      exact ih hm

theorem entriesFor_insertBrowser (st : AggState) (b : AvailableBrowser) (k : String)
    (hn : KeysNodup st.map) :
    entriesFor k (insertBrowser st b).map =
      if getBrowserId b = k then [b] else entriesFor k st.map := by
  unfold insertBrowser entriesFor
  by_cases h : st.map.any (fun p => p.1 == getBrowserId b)
  · simp only [h, if_true]
    rw [List.filter_map]
    have hcomp : ((fun p : String × AvailableBrowser => p.1 == k) ∘
        (fun p : String × AvailableBrowser =>
          if p.1 == getBrowserId b then (p.1, b) else p)) =
        (fun p : String × AvailableBrowser => p.1 == k) := by
      funext p
      simp only [Function.comp_apply]
      split <;> rfl
    rw [hcomp]
    by_cases hbk : getBrowserId b = k
    · subst hbk
      rw [if_pos rfl]
      obtain ⟨p0, hp0, hq0⟩ := List.any_eq_true.mp h
      have hne : st.map.filter (fun p => p.1 == getBrowserId b) ≠ [] := by
        intro hnil
        have hmem : p0 ∈ st.map.filter (fun p => p.1 == getBrowserId b) :=
          List.mem_filter.mpr ⟨hp0, hq0⟩
        rw [hnil] at hmem
        exact absurd hmem (List.not_mem_nil p0)
      rcases filter_key_single hn with hc | ⟨pr, hpr, hprk⟩
      · exact absurd hc hne
      · rw [hpr]
        simp [hprk]
    · rw [if_neg hbk]
      congr 1
      have hfix : ∀ p ∈ List.filter (fun p => p.1 == k) st.map,
          (if (p.1 == getBrowserId b) = true then (p.1, b) else p) = p := by
        intro p hp
        have hpk : p.1 = k := by simpa using (List.mem_filter.mp hp).2
        rw [if_neg]
        simp only [beq_iff_eq, hpk]
        intro hh
        exact hbk hh.symm
      rw [List.map_congr_left hfix, List.map_id']
  · rw [if_neg h]
    rw [List.filter_append]
    by_cases hbk : getBrowserId b = k
    · rw [if_pos hbk]
      have hm : st.map.filter (fun p => p.1 == k) = [] := by
        rw [List.filter_eq_nil_iff]
        intro q hq
        simp only [beq_iff_eq]
        intro hqk
        exact absurd (List.any_eq_true.mpr ⟨q, hq, by simp [hqk, hbk]⟩) h
      rw [hm]
      simp [hbk]
    · rw [if_neg hbk]
      have hone : List.filter (fun p => p.1 == k) [(getBrowserId b, b)] = [] := by
        simp [hbk]
      rw [hone, List.append_nil]

theorem entriesFor_addBrowsers (k : String) (bs : List AvailableBrowser) :
    ∀ st : AggState, KeysNodup st.map →
      entriesFor k (addBrowsers st bs).map =
        (match lastWithKey k bs with
         | some b => [b]
         | none => entriesFor k st.map) := by
  induction bs with
  | nil => intro st _; rfl
  | cons b bs ih =>
    intro st hn
    have h1 : addBrowsers st (b :: bs) = addBrowsers (insertBrowser st b) bs := rfl
    rw [h1, ih _ (keysNodup_insertBrowser hn b)]
    cases hl : lastWithKey k bs with
    | some r => simp [lastWithKey, hl]
    | none =>
      simp only [lastWithKey, hl]
      rw [entriesFor_insertBrowser st b k hn]
      by_cases hbk : getBrowserId b = k <;> simp [hbk]

theorem warnings_le_insertBrowser (st : AggState) (b : AvailableBrowser) :
    st.warnings ≤ (insertBrowser st b).warnings := by
  unfold insertBrowser
  by_cases h : st.map.any (fun p => p.1 == getBrowserId b) <;> simp [h]

theorem warnings_le_addBrowsers (bs : List AvailableBrowser) :
    ∀ st : AggState, st.warnings ≤ (addBrowsers st bs).warnings := by
  induction bs with
  | nil => intro st; exact le_refl _
  | cons b bs ih =>
    intro st
    exact le_trans (warnings_le_insertBrowser st b) (ih (insertBrowser st b))

theorem key_mem_insertBrowser (st : AggState) (b : AvailableBrowser) :
    getBrowserId b ∈ (insertBrowser st b).map.map Prod.fst := by
  rw [keys_insertBrowser]
  by_cases h : st.map.any (fun p => p.1 == getBrowserId b)
  · obtain ⟨p, hp, hq⟩ := List.any_eq_true.mp h
    simp only [h, if_true]
    exact List.mem_map.mpr ⟨p, hp, by simpa using hq⟩
  · simp [h]

theorem key_mem_mono_insert (st : AggState) (b : AvailableBrowser) (k : String)
    (h : k ∈ st.map.map Prod.fst) : k ∈ (insertBrowser st b).map.map Prod.fst := by
  rw [keys_insertBrowser]
  by_cases hc : st.map.any (fun p => p.1 == getBrowserId b) <;> simp [hc, h]

theorem key_mem_mono_add (bs : List AvailableBrowser) :
    ∀ (st : AggState) (k : String), k ∈ st.map.map Prod.fst →
      k ∈ (addBrowsers st bs).map.map Prod.fst := by
  induction bs with
  | nil => intro st k h; exact h
  | cons b bs ih =>
    intro st k h
    exact ih (insertBrowser st b) k (key_mem_mono_insert st b k h)

theorem insertBrowser_warning_of_mem (st : AggState) (b : AvailableBrowser)
    (h : getBrowserId b ∈ st.map.map Prod.fst) :
    (insertBrowser st b).warnings = st.warnings + 1 := by
  obtain ⟨p, hp, hq⟩ := List.mem_map.mp h
  unfold insertBrowser
  have hany : st.map.any (fun p => p.1 == getBrowserId b) = true :=
    List.any_eq_true.mpr ⟨p, hp, by simp [hq]⟩
  simp [hany]

theorem lastWithKey_isSome {k : String} {bs : List AvailableBrowser}
    {b : AvailableBrowser} (hb : b ∈ bs) (hk : getBrowserId b = k) :
    ∃ r, lastWithKey k bs = some r := by
  induction bs with
  | nil => exact absurd hb (List.not_mem_nil b)
  | cons c cs ih =>
    cases hl : lastWithKey k cs with
    | some r => exact ⟨r, by simp [lastWithKey, hl]⟩
    | none =>
      rcases List.mem_cons.mp hb with rfl | hb'
      · exact ⟨b, by simp [lastWithKey, hl, hk]⟩
      · obtain ⟨r, hr⟩ := ih hb'
        rw [hr] at hl
        exact absurd hl (by simp)

/-- C6: if two insertions into the aggregation map share the underscore
identity key, the final map holds exactly one entry for that key — the
last browser inserted with it — a duplicate warning was recorded at the
colliding insertion, and the collision never prevents the insertion or
aborts the run. -/
theorem addBrowsers_collision (l₁ l₂ l₃ : List AvailableBrowser)
    (x y : AvailableBrowser) (hk : getBrowserId x = getBrowserId y) :
    ∃ b, lastWithKey (getBrowserId y) (l₁ ++ x :: (l₂ ++ y :: l₃)) = some b ∧
      entriesFor (getBrowserId y)
        (addBrowsers ⟨[], 0⟩ (l₁ ++ x :: (l₂ ++ y :: l₃))).map = [b] ∧
      1 ≤ (addBrowsers (⟨[], 0⟩ : AggState) (l₁ ++ x :: (l₂ ++ y :: l₃))).warnings := by
  obtain ⟨b, hb⟩ := lastWithKey_isSome
    (show y ∈ l₁ ++ x :: (l₂ ++ y :: l₃) by simp) rfl
  refine ⟨b, hb, ?_, ?_⟩
  · rw [entriesFor_addBrowsers _ _ _ (by simp [KeysNodup]), hb]
  · have hdecomp : addBrowsers (⟨[], 0⟩ : AggState) (l₁ ++ x :: (l₂ ++ y :: l₃)) =
        addBrowsers (insertBrowser
          (addBrowsers (insertBrowser (addBrowsers ⟨[], 0⟩ l₁) x) l₂) y) l₃ := by
      unfold addBrowsers
      rw [List.foldl_append, List.foldl_cons, List.foldl_append, List.foldl_cons]
    rw [hdecomp]
    have hkey2 : getBrowserId y ∈
        (insertBrowser (addBrowsers ⟨[], 0⟩ l₁) x).map.map Prod.fst :=
      hk ▸ key_mem_insertBrowser (addBrowsers ⟨[], 0⟩ l₁) x
    have hkey3 : getBrowserId y ∈
        (addBrowsers (insertBrowser (addBrowsers ⟨[], 0⟩ l₁) x) l₂).map.map Prod.fst :=
      key_mem_mono_add l₂ _ _ hkey2
    have hw := insertBrowser_warning_of_mem _ y hkey3
    have hmono := warnings_le_addBrowsers l₃
      (insertBrowser (addBrowsers (insertBrowser (addBrowsers ⟨[], 0⟩ l₁) x) l₂) y)
    omega

/-- Witness for C6: inserting the same browser twice collides on its key;
the final map holds it once and one warning was recorded. -/
theorem addBrowsers_collision_witness :
    ∃ b, lastWithKey (getBrowserId (exEntry "3")) [exEntry "3", exEntry "3"] = some b ∧
      entriesFor (getBrowserId (exEntry "3"))
        (addBrowsers ⟨[], 0⟩ [exEntry "3", exEntry "3"]).map = [b] ∧
      1 ≤ (addBrowsers (⟨[], 0⟩ : AggState) [exEntry "3", exEntry "3"]).warnings :=
  addBrowsers_collision [] [] [] (exEntry "3") (exEntry "3") rfl

/-! ## The `last N` pattern -/

theorem matchLastHere_of_pattern {d : Char} {q : List Char} (hd : d.isDigit = true) :
    matchLastHere ('l' :: 'a' :: 's' :: 't' :: ' ' :: d :: q) =
      some (digitsToNat ((d :: q).takeWhile Char.isDigit)) := by
  have hne : (d :: q).takeWhile Char.isDigit ≠ [] := by
    simp [List.takeWhile_cons, hd]
  simp [matchLastHere, hne]

theorem matchLastHere_eq_some {cs : List Char} {n : Nat}
    (h : matchLastHere cs = some n) :
    ∃ d q, cs = 'l' :: 'a' :: 's' :: 't' :: ' ' :: d :: q ∧ d.isDigit = true ∧
      n = digitsToNat ((d :: q).takeWhile Char.isDigit) := by
  unfold matchLastHere at h
  split at h
  · rename_i rest
    by_cases hds : rest.takeWhile Char.isDigit = []
    · rw [if_pos hds] at h
      exact absurd h (by simp)
    · rw [if_neg hds] at h
      cases rest with
      | nil => exact absurd rfl hds
      | cons d q =>
        have hd : d.isDigit = true := by
          by_contra hnd
          simp [List.takeWhile_cons, hnd] at hds
        refine ⟨d, q, rfl, hd, ?_⟩
        have := Option.some.injEq .. ▸ h
        simpa using this.symm
  · exact absurd h (by simp)

theorem searchLast_eq_none_iff (cs : List Char) :
    searchLast cs = none ↔ ∀ p d q, ¬ LastPatternAt cs p d q := by
  induction cs with
  | nil =>
    constructor
    · intro _ p d q hpat
      rcases hpat with ⟨heq, _⟩
      have := congrArg List.length heq
      simp [List.length_append] at this
      omega
    · intro _
      rfl
  | cons c cs ih =>
    constructor
    · intro h p d q hpat
      cases hm : matchLastHere (c :: cs) with
      | some m =>
        rw [searchLast, hm] at h
        exact absurd h (by simp)
      | none =>
        have htail : searchLast cs = none := by
          rw [searchLast, hm] at h
          exact h
        rcases hpat with ⟨heq, hd⟩
        cases p with
        | nil =>
          rw [List.nil_append] at heq
          cases heq
          rw [matchLastHere_of_pattern hd] at hm
          exact absurd hm (by simp)
        | cons c' p' =>
          rw [List.cons_append] at heq
          cases heq
          exact (ih.mp htail) p' d q ⟨rfl, hd⟩
    · intro h
      cases hm : matchLastHere (c :: cs) with
      | some m =>
        obtain ⟨d, q, heq, hd, _⟩ := matchLastHere_eq_some hm
        exact absurd (⟨by rw [List.nil_append]; exact heq, hd⟩ :
          LastPatternAt (c :: cs) [] d q) (h [] d q)
      | none =>
        rw [searchLast, hm]
        apply ih.mpr
        intro p d q hpat
        rcases hpat with ⟨heq, hd⟩
        exact h (c :: p) d q ⟨by rw [List.cons_append, ← heq], hd⟩

theorem searchLast_first {p : List Char} {cs : List Char} {d : Char} {q : List Char}
    (h : FirstLastPatternAt cs p d q) :
    searchLast cs = some (digitsToNat ((d :: q).takeWhile Char.isDigit)) := by
  induction p generalizing cs with
  | nil =>
    rcases h with ⟨⟨heq, hd⟩, _⟩
    rw [List.nil_append] at heq
    subst heq
    rw [searchLast, matchLastHere_of_pattern hd]
  | cons c p' ih =>
    rcases h with ⟨⟨heq, hd⟩, hmin⟩
    rw [List.cons_append] at heq
    subst heq
    have hm : matchLastHere (c :: (p' ++ 'l' :: 'a' :: 's' :: 't' :: ' ' :: d :: q)) =
        none := by
      cases hm2 : matchLastHere (c :: (p' ++ 'l' :: 'a' :: 's' :: 't' :: ' ' :: d :: q)) with
      | none => rfl
      | some m =>
        obtain ⟨d₂, q₂, heq₂, hd₂, _⟩ := matchLastHere_eq_some hm2
        have hle := hmin [] d₂ q₂ ⟨by rw [List.nil_append]; exact heq₂, hd₂⟩
        simp at hle
    rw [searchLast, hm]
    refine ih ⟨⟨rfl, hd⟩, ?_⟩
    intro p₂ d₂ q₂ hp₂
    have hle := hmin (c :: p₂) d₂ q₂ ⟨by rw [List.cons_append, hp₂.1], hp₂.2⟩
    simpa using hle

/-- C3 counterexample: `"blast 2"` is not the case-sensitive literal
`last ` followed by an integer, so per the claim it should parse to
ExactList(["blast 2"]); the code's unanchored regex search finds
`last 2` inside it and yields LastN(2). -/
theorem parseBrowserVersion_counterexample :
    parseBrowserVersion (some "blast 2") = .last 2 ∧
    parseBrowserVersion (some "blast 2") ≠ .list ["blast 2"] :=
  ⟨by decide, by decide⟩

/-- C3 (amended: the `last N` test is an unanchored substring search, so
any non-empty string containing `last ` followed by a digit maps to
LastN, with N the digit run at the leftmost occurrence; only non-empty
strings with no such occurrence map to ExactList): an absent or empty
raw version maps to NoVersion; a non-empty string whose leftmost
`last `-plus-digit occurrence starts after prefix `p` maps to LastN of
the maximal digit run there; a non-empty string with no occurrence maps
to ExactList of the comma-split substrings, with no trimming. -/
theorem parseBrowserVersion_characterization (v : Option String) :
    ((v = none ∨ v = some "") → parseBrowserVersion v = .noVersion) ∧
    (∀ s : String, v = some s → s ≠ "" →
      (∀ p d q, FirstLastPatternAt s.data p d q →
        parseBrowserVersion v = .last (digitsToNat ((d :: q).takeWhile Char.isDigit))) ∧
      ((∀ p d q, ¬ LastPatternAt s.data p d q) →
        parseBrowserVersion v = .list (splitOnCommas s))) := by
  refine ⟨?_, ?_⟩
  · rintro (rfl | rfl) <;> rfl
  · rintro s rfl hs
    constructor
    · intro p d q hp
      simp only [parseBrowserVersion, if_neg hs]
      rw [searchLast_first hp]
    · intro hnone
      simp only [parseBrowserVersion, if_neg hs]
      rw [(searchLast_eq_none_iff s.data).mpr hnone]

/-- Witness for C3: `"last 2"` parses to LastN(2) via the
first-occurrence case of the characterization. -/
theorem parseBrowserVersion_characterization_witness :
    parseBrowserVersion (some "last 2") = .last 2 :=
  (((parseBrowserVersion_characterization (some "last 2")).2 "last 2" rfl
      (by decide)).1 [] '2' []
    ⟨⟨by decide, by decide⟩, fun p₂ d₂ q₂ _ => Nat.zero_le _⟩)

/-! ## Membership preservation -/

theorem mem_filteredCandidates {catalog : List AvailableBrowser} {spec : ResolvedSpec}
    {b : AvailableBrowser} (hb : b ∈ filteredCandidates catalog spec) : b ∈ catalog := by
  unfold filteredCandidates at hb
  split at hb
  · exact (List.mem_filter.mp hb).1
  · exact (List.mem_filter.mp (List.mem_filter.mp hb).1).1
  · have hmem := mem_sortJS.mp (List.mem_of_mem_take hb)
    exact (List.mem_filter.mp hmem).1

theorem matchSpec_ok_mem {catalog : List AvailableBrowser} {spec : ResolvedSpec}
    {r : List AvailableBrowser}
    (h : getBrowsersThatMatchSpec catalog spec = Except.ok r) :
    ∀ b ∈ r, b ∈ catalog := by
  intro b hb
  rcases matchSpec_ok_eq h
  exact mem_filteredCandidates hb

theorem values_insertBrowser_subset (st : AggState) (b v : AvailableBrowser)
    (hv : v ∈ (insertBrowser st b).map.map Prod.snd) :
    v = b ∨ v ∈ st.map.map Prod.snd := by
  unfold insertBrowser at hv
  by_cases h : st.map.any (fun p => p.1 == getBrowserId b)
  · rw [if_pos h] at hv
    rw [List.map_map] at hv
    obtain ⟨p, hp, hq⟩ := List.mem_map.mp hv
    by_cases hk : (p.1 == getBrowserId b) = true
    · left
      rw [← hq]
      simp only [Function.comp_apply]
      rw [if_pos hk]
    · right
      rw [← hq]
      simp only [Function.comp_apply, if_neg hk]
      exact List.mem_map_of_mem Prod.snd hp
  · rw [if_neg h] at hv
    rw [List.map_append] at hv
    rcases List.mem_append.mp hv with h1 | h2
    · exact Or.inr h1
    · left
      simpa using h2

theorem values_addBrowsers_subset (bs : List AvailableBrowser) :
    ∀ (st : AggState) (v : AvailableBrowser),
      v ∈ (addBrowsers st bs).map.map Prod.snd →
      v ∈ bs ∨ v ∈ st.map.map Prod.snd := by
  induction bs with
  | nil => exact fun st v h => Or.inr h
  | cons b bs ih =>
    intro st v h
    rcases ih (insertBrowser st b) v h with h1 | h2
    · exact Or.inl (List.mem_cons_of_mem b h1)
    · rcases values_insertBrowser_subset st b v h2 with rfl | h3
      · exact Or.inl (List.mem_cons_self v bs)
      · exact Or.inr h3

theorem processSpecs_subset (catalog : List AvailableBrowser) (specs : List ResolvedSpec) :
    ∀ (st st' : AggState), processSpecs catalog st specs = Except.ok st' →
      (∀ v ∈ st.map.map Prod.snd, v ∈ catalog) →
      ∀ v ∈ st'.map.map Prod.snd, v ∈ catalog := by
  induction specs with
  | nil =>
    intro st st' h hinv
    have hst : st = st' := by
      injection h
    subst hst
    exact hinv
  | cons spec rest ih =>
    intro st st' h hinv
    cases hm : getBrowsersThatMatchSpec catalog spec with
    | error e =>
      have h2 : (Except.error e : Except ResolvedSpec (List AvailableBrowser)).bind
          (fun browsers => processSpecs catalog (addBrowsers st browsers) rest) =
          Except.ok st' := by
        rw [← hm]
        exact h
      exact absurd h2 (by simp [Except.bind])
    | ok r =>
      have h' : processSpecs catalog (addBrowsers st r) rest = Except.ok st' := by
        have h2 : (Except.ok r : Except ResolvedSpec (List AvailableBrowser)).bind
            (fun browsers => processSpecs catalog (addBrowsers st browsers) rest) =
            Except.ok st' := by
          rw [← hm]
          exact h
        exact h2
      refine ih _ _ h' ?_
      intro v hv
      rcases values_addBrowsers_subset r st v hv with h1 | h2
      · exact matchSpec_ok_mem hm v h1
      · exact hinv v h2

/-- C9: on a normal (non-fatal) run, every element of the returned target
list is an element of the catalog — the matcher never fabricates or
modifies a browser record. -/
theorem getTargetBrowsers_subset (availableBrowsers : List AvailableBrowser)
    (aggregatedSpecs : List GroupedBrowserSpec) (targets : List AvailableBrowser)
    (w : Nat)
    (h : getTargetBrowsers availableBrowsers aggregatedSpecs = Except.ok (targets, w)) :
    ∀ b ∈ targets, b ∈ availableBrowsers := by
  unfold getTargetBrowsers at h
  cases hp : processSpecs availableBrowsers ⟨[], 0⟩
      (aggregatedSpecs.flatMap resolveSpecs) with
  | error e =>
    rw [hp] at h
    exact absurd h (by simp [Except.bind])
  | ok st =>
    rw [hp] at h
    have hval : st.map.map Prod.snd = targets := by
      have := Except.ok.injEq .. ▸ h
      exact (Prod.mk.injEq .. ▸ this).1
    intro b hb
    refine processSpecs_subset availableBrowsers _ _ _ hp (by simp) b ?_
    rw [hval]
    exact hb

/-- Witness for C9: the worked example run returns the single catalog
entry, which is in the catalog. -/
theorem getTargetBrowsers_subset_witness :
    exEntry "10.3" ∈ [exEntry "10.3"] :=
  getTargetBrowsers_subset [exEntry "10.3"] [exGroup] [exEntry "10.3"] 0
    (by decide) (exEntry "10.3") (by decide)

/-! ## Frame properties of the reference-passing model -/

theorem readArr_append {σ : Store} {i : Nat} (hi : i < σ.length)
    (a : List AvailableBrowser) : readArr (σ ++ [a]) i = readArr σ i := by
  unfold readArr
  rw [List.getD_eq_getElem?_getD, List.getD_eq_getElem?_getD,
    List.getElem?_append_left hi]

theorem readArr_fresh (σ : Store) (a : List AvailableBrowser) :
    readArr (σ ++ [a]) σ.length = a := by
  unfold readArr
  rw [List.getD_eq_getElem?_getD, List.getElem?_concat_length]
  rfl

theorem readArr_set_ne {j i : Nat} (hij : j ≠ i) (σ : Store)
    (a : List AvailableBrowser) : readArr (σ.set j a) i = readArr σ i := by
  unfold readArr
  rw [List.getD_eq_getElem?_getD, List.getD_eq_getElem?_getD,
    List.getElem?_set_ne hij]

theorem readArr_set_self {j : Nat} {σ : Store} (hj : j < σ.length)
    (a : List AvailableBrowser) : readArr (σ.set j a) j = a := by
  unfold readArr
  rw [List.getD_eq_getElem?_getD, List.getElem?_set_self hj]
  rfl

theorem matchSpecRefCore_frame (σ : Store) (availRef : Nat) (spec : ResolvedSpec) :
    σ.length ≤ (matchSpecRefCore σ availRef spec).1.length ∧
    ∀ i < σ.length,
      readArr (matchSpecRefCore σ availRef spec).1 i = readArr σ i := by
  unfold matchSpecRefCore allocArr writeArr
  rcases hv : spec.browser_version with _ | n | versions
  · simp only [hv]
    refine ⟨?_, ?_⟩
    · simp
    · intro i hi
      exact readArr_append hi _
  · simp only [hv]
    split
    · refine ⟨?_, ?_⟩
      · simp
      · intro i hi
        rw [readArr_set_ne (by omega), readArr_append hi]
    · refine ⟨?_, ?_⟩
      · simp
      · intro i hi
        rw [readArr_append (by simp; omega),
          readArr_set_ne (by omega), readArr_append hi]
  · simp only [hv]
    refine ⟨?_, ?_⟩
    · simp
    · intro i hi
      rw [readArr_append (by simp; omega), readArr_append hi]

theorem matchSpecRef_frame (σ : Store) (availRef : Nat) (spec : ResolvedSpec) :
    σ.length ≤ (getBrowsersThatMatchSpecRef σ availRef spec).1.length ∧
    ∀ i < σ.length,
      readArr (getBrowsersThatMatchSpecRef σ availRef spec).1 i = readArr σ i := by
  obtain ⟨hlen, hread⟩ := matchSpecRefCore_frame σ availRef spec
  unfold getBrowsersThatMatchSpecRef
  cases hm : matchSpecRefCore σ availRef spec with
  | mk σ₂ res =>
    rw [hm] at hlen hread
    cases res with
    | error e => exact ⟨hlen, hread⟩
    | ok brF =>
      dsimp only
      split <;> exact ⟨hlen, hread⟩

theorem matchSpecRef_result (σ : Store) (availRef : Nat) (spec : ResolvedSpec) :
    (getBrowsersThatMatchSpecRef σ availRef spec).2.map
        (readArr (getBrowsersThatMatchSpecRef σ availRef spec).1) =
      getBrowsersThatMatchSpec (readArr σ availRef) spec := by
  rw [getBrowsersThatMatchSpec_eq]
  unfold getBrowsersThatMatchSpecRef matchSpecRefCore allocArr writeArr
  rcases hv : spec.browser_version with _ | n | versions
  · simp only [hv]
    simp only [readArr_fresh]
    by_cases h : List.filter (specMatchesBrowser spec) (readArr σ availRef) = []
    · simp only [if_pos h, Except.map]
    · simp only [if_neg h, Except.map]
      rw [readArr_fresh]
  · simp only [hv]
    simp only [readArr_fresh]
    have hset : ∀ S : List AvailableBrowser,
        readArr ((σ ++ [List.filter (specMatchesBrowser spec) (readArr σ availRef)]).set
          σ.length S) σ.length = S :=
      fun S => readArr_set_self (by simp) S
    simp only [hset]
    by_cases h1 : (sortJS (List.filter (specMatchesBrowser spec) (readArr σ availRef))).length < n
    · simp only [if_pos h1, Except.map]
    · simp only [if_neg h1]
      simp only [readArr_fresh]
      by_cases h2 : List.take n (sortJS (List.filter (specMatchesBrowser spec)
          (readArr σ availRef))) = []
      · simp only [if_pos h2, Except.map]
      · simp only [if_neg h2, Except.map]
        rw [readArr_fresh]
  · simp only [hv]
    simp only [readArr_fresh]
    by_cases h : List.filter (fun b => versionIncluded versions b.browser_version)
        (List.filter (specMatchesBrowser spec) (readArr σ availRef)) = []
    · simp only [if_pos h, Except.map]
    · simp only [if_neg h, Except.map]
      rw [readArr_fresh]

theorem processSpecsRef_frame (availRef : Nat) (specs : List ResolvedSpec) :
    ∀ (σ : Store) (st : AggState),
      σ.length ≤ (processSpecsRef availRef σ st specs).1.length ∧
      ∀ i < σ.length,
        readArr (processSpecsRef availRef σ st specs).1 i = readArr σ i := by
  induction specs with
  | nil => exact fun σ st => ⟨le_refl _, fun i _ => rfl⟩
  | cons spec rest ih =>
    intro σ st
    obtain ⟨hlen1, hread1⟩ := matchSpecRef_frame σ availRef spec
    cases hm : getBrowsersThatMatchSpecRef σ availRef spec with
    | mk σ' res =>
      rw [hm] at hlen1 hread1
      cases res with
      | error e =>
        have heq : processSpecsRef availRef σ st (spec :: rest) =
            (σ', Except.error e) := by
          simp only [processSpecsRef, hm]
        rw [heq]
        exact ⟨hlen1, hread1⟩
      | ok br =>
        have heq : processSpecsRef availRef σ st (spec :: rest) =
            processSpecsRef availRef σ' (addBrowsers st (readArr σ' br)) rest := by
          simp only [processSpecsRef, hm]
        rw [heq]
        obtain ⟨hlen2, hread2⟩ := ih σ' (addBrowsers st (readArr σ' br))
        refine ⟨le_trans hlen1 hlen2, ?_⟩
        intro i hi
        rw [hread2 i (lt_of_lt_of_le hi hlen1), hread1 i hi]

theorem processSpecsRef_result (availRef : Nat) (specs : List ResolvedSpec) :
    ∀ (σ : Store) (st : AggState), availRef < σ.length →
      (processSpecsRef availRef σ st specs).2 =
        processSpecs (readArr σ availRef) st specs := by
  induction specs with
  | nil => exact fun σ st _ => rfl
  | cons spec rest ih =>
    intro σ st hav
    have hres := matchSpecRef_result σ availRef spec
    obtain ⟨hlen1, hread1⟩ := matchSpecRef_frame σ availRef spec
    cases hm : getBrowsersThatMatchSpecRef σ availRef spec with
    | mk σ' res =>
      rw [hm] at hres hlen1 hread1
      cases res with
      | error e =>
        have heq : processSpecsRef availRef σ st (spec :: rest) =
            (σ', Except.error e) := by
          simp only [processSpecsRef, hm]
        rw [heq]
        have hpure : getBrowsersThatMatchSpec (readArr σ availRef) spec =
            Except.error e := by
          simpa [Except.map] using hres.symm
        have hcons : processSpecs (readArr σ availRef) st (spec :: rest) =
            (getBrowsersThatMatchSpec (readArr σ availRef) spec).bind
              (fun browsers =>
                processSpecs (readArr σ availRef) (addBrowsers st browsers) rest) := rfl
        rw [hcons, hpure]
        rfl
      | ok br =>
        have heq : processSpecsRef availRef σ st (spec :: rest) =
            processSpecsRef availRef σ' (addBrowsers st (readArr σ' br)) rest := by
          simp only [processSpecsRef, hm]
        rw [heq]
        have hpure : getBrowsersThatMatchSpec (readArr σ availRef) spec =
            Except.ok (readArr σ' br) := by
          simpa [Except.map] using hres.symm
        have hcons : processSpecs (readArr σ availRef) st (spec :: rest) =
            (getBrowsersThatMatchSpec (readArr σ availRef) spec).bind
              (fun browsers =>
                processSpecs (readArr σ availRef) (addBrowsers st browsers) rest) := rfl
        rw [hcons, hpure]
        have hbind : (Except.ok (readArr σ' br) :
            Except ResolvedSpec (List AvailableBrowser)).bind
              (fun browsers =>
                processSpecs (readArr σ availRef) (addBrowsers st browsers) rest) =
            processSpecs (readArr σ availRef) (addBrowsers st (readArr σ' br)) rest := rfl
        rw [hbind]
        rw [ih σ' (addBrowsers st (readArr σ' br)) (lt_of_lt_of_le hav hlen1),
          hread1 availRef hav]

/-- C8: `getTargetBrowsers` never modifies its `availableBrowsers` input.
In the reference-passing model — where `filter` and `slice` allocate
fresh array cells and the in-place `sort` writes only to the freshly
allocated filter result — every array cell that existed before the call,
the catalog's included, holds the same records in the same order
afterwards, and the computed outcome coincides with the pure embedding
(so the run has no effect on the inputs beyond the returned
warnings/fatal error). -/
theorem getTargetBrowsers_frame (σ : Store) (availRef : Nat)
    (aggregatedSpecs : List GroupedBrowserSpec) (hav : availRef < σ.length) :
    (∀ i < σ.length,
      readArr (getTargetBrowsersRef σ availRef aggregatedSpecs).1 i = readArr σ i) ∧
    (getTargetBrowsersRef σ availRef aggregatedSpecs).2 =
      getTargetBrowsers (readArr σ availRef) aggregatedSpecs := by
  obtain ⟨hlen, hread⟩ :=
    processSpecsRef_frame availRef (aggregatedSpecs.flatMap resolveSpecs) σ ⟨[], 0⟩
  have hres := processSpecsRef_result availRef (aggregatedSpecs.flatMap resolveSpecs)
    σ ⟨[], 0⟩ hav
  unfold getTargetBrowsersRef
  cases hp : processSpecsRef availRef σ ⟨[], 0⟩ (aggregatedSpecs.flatMap resolveSpecs) with
  | mk σ' res =>
    rw [hp] at hlen hread hres
    cases res with
    | error e =>
      refine ⟨hread, ?_⟩
      have hpure : processSpecs (readArr σ availRef) ⟨[], 0⟩
          (aggregatedSpecs.flatMap resolveSpecs) = Except.error e := hres.symm
      have hcons : getTargetBrowsers (readArr σ availRef) aggregatedSpecs =
          (processSpecs (readArr σ availRef) ⟨[], 0⟩
            (aggregatedSpecs.flatMap resolveSpecs)).bind
            (fun st => Except.ok (st.map.map Prod.snd, st.warnings)) := rfl
      rw [hcons, hpure]
      rfl
    | ok st =>
      refine ⟨hread, ?_⟩
      have hpure : processSpecs (readArr σ availRef) ⟨[], 0⟩
          (aggregatedSpecs.flatMap resolveSpecs) = Except.ok st := hres.symm
      have hcons : getTargetBrowsers (readArr σ availRef) aggregatedSpecs =
          (processSpecs (readArr σ availRef) ⟨[], 0⟩
            (aggregatedSpecs.flatMap resolveSpecs)).bind
            (fun st => Except.ok (st.map.map Prod.snd, st.warnings)) := rfl
      rw [hcons, hpure]
      rfl

/-- Witness for C8: a one-cell store holding the example catalog is
untouched by a run, whose outcome equals the pure embedding's. -/
theorem getTargetBrowsers_frame_witness :
    (∀ i < ([[exEntry "10.3"]] : Store).length,
      readArr (getTargetBrowsersRef [[exEntry "10.3"]] 0 [exGroup]).1 i =
        readArr [[exEntry "10.3"]] i) ∧
    (getTargetBrowsersRef [[exEntry "10.3"]] 0 [exGroup]).2 =
      getTargetBrowsers (readArr [[exEntry "10.3"]] 0) [exGroup] :=
  getTargetBrowsers_frame [[exEntry "10.3"]] 0 [exGroup] (by decide)
